import Mathlib

/-!
Verification of the subtitle-translation pipeline (`src/translate.py`).

Texts are modelled as `List Char` (Python `str` is a sequence of code
points).  File system and remote-capability interactions are modelled by
explicit oracles, and the observable side effects of a run (file reads and
writes, driver invocations, sleeps) are recorded in an event trace.
-/

set_option maxHeartbeats 2000000
set_option maxRecDepth 8192

namespace YT

/-- Characters recognised as line boundaries by Python `str.splitlines`:
LF, CR, VT, FF, FS, GS, RS, NEL, LINE SEPARATOR, PARAGRAPH SEPARATOR. -/
def isLineBreak (c : Char) : Bool :=
  decide (c.toNat = 10 ∨ c.toNat = 13 ∨ c.toNat = 11 ∨ c.toNat = 12 ∨
    c.toNat = 28 ∨ c.toNat = 29 ∨ c.toNat = 30 ∨ c.toNat = 133 ∨
    c.toNat = 8232 ∨ c.toNat = 8233)

/-- Python `str.splitlines(keepends=True)`: the accumulator holds the
characters of the current (unterminated) line in reverse order.  A CR
immediately followed by LF counts as a single line terminator. -/
def splitlinesAux : List Char → List Char → List (List Char)
  | acc, [] => if acc = [] then [] else [acc.reverse]
  | acc, '\r' :: '\n' :: rest => (acc.reverse ++ ['\r', '\n']) :: splitlinesAux [] rest
  | acc, c :: rest =>
    if isLineBreak c then (acc.reverse ++ [c]) :: splitlinesAux [] rest
    else splitlinesAux (c :: acc) rest

/-- `text.splitlines(keepends=True)` from `_chunk_text`. -/
def splitlines (text : List Char) : List (List Char) :=
  splitlinesAux [] text

theorem splitlinesAux_nil (acc : List Char) :
    splitlinesAux acc [] = if acc = [] then [] else [acc.reverse] :=
  splitlinesAux.eq_1 acc

theorem splitlinesAux_crlf (acc rest : List Char) :
    splitlinesAux acc ('\r' :: '\n' :: rest) =
      (acc.reverse ++ ['\r', '\n']) :: splitlinesAux [] rest :=
  splitlinesAux.eq_2 acc rest

theorem splitlinesAux_break (acc : List Char) (c : Char) (rest : List Char)
    (hbr : isLineBreak c = true)
    (hne : ¬(c = '\r' ∧ rest.head? = some '\n')) :
    splitlinesAux acc (c :: rest) = (acc.reverse ++ [c]) :: splitlinesAux [] rest := by
  rw [splitlinesAux.eq_3 acc c rest
    (fun rest' hc hr => hne ⟨hc, by rw [hr]; rfl⟩)]
  rw [if_pos hbr]

theorem splitlinesAux_other (acc : List Char) (c : Char) (rest : List Char)
    (hbr : isLineBreak c = false) :
    splitlinesAux acc (c :: rest) = splitlinesAux (c :: acc) rest := by
  have hc : c ≠ '\r' := by
    intro hc
    subst hc
    exact absurd hbr (by decide)
  rw [splitlinesAux.eq_3 acc c rest (fun rest' hcc _ => hc hcc)]
  rw [if_neg (by simp [hbr])]

/-- The loop of `_chunk_text`: `current` is the running buffer; before
appending a line that would overflow the budget, the buffer is flushed as a
chunk; the remaining buffer is flushed at the end when non-empty. -/
def chunkAux (max_chars : Nat) : List Char → List (List Char) → List (List Char)
  | current, [] => if current = [] then [] else [current]
  | current, line :: rest =>
    if current.length + line.length > max_chars then
      current :: chunkAux max_chars line rest
    else
      chunkAux max_chars (current ++ line) rest

/-- `_chunk_text(text, max_chars)`: split `text` into chunks without
breaking lines. -/
def _chunk_text (text : List Char) (max_chars : Nat) : List (List Char) :=
  chunkAux max_chars [] (splitlines text)

/-! ### Basic facts about `splitlines` -/

theorem splitlinesAux_join_le (n : Nat) :
    ∀ l : List Char, l.length ≤ n → ∀ acc : List Char,
      (splitlinesAux acc l).flatten = acc.reverse ++ l := by
  induction n with
  | zero =>
      intro l hl acc
      have hnil : l = [] := List.length_eq_zero.mp (Nat.le_zero.mp hl)
      subst hnil
      rw [splitlinesAux_nil]
      by_cases h : acc = [] <;> simp [h]
  | succ n ih =>
      intro l hl acc
      cases l with
      | nil =>
          rw [splitlinesAux_nil]
          by_cases h : acc = [] <;> simp [h]
      | cons c rest =>
          by_cases hbr : isLineBreak c
          · by_cases hcr : c = '\r' ∧ rest.head? = some '\n'
            · obtain ⟨hc, hh⟩ := hcr
              subst hc
              cases rest with
              | nil => simp at hh
              | cons d rest2 =>
                  have hd : d = '\n' := by simpa using hh
                  subst hd
                  rw [splitlinesAux_crlf]
                  have hrec := ih rest2 (by simp at hl ⊢; omega) []
                  simp [hrec]
            · rw [splitlinesAux_break acc c rest hbr hcr]
              have hrec := ih rest (by simp at hl ⊢; omega) []
              simp [hrec]
          · rw [splitlinesAux_other acc c rest (by simpa using hbr)]
            have hrec := ih rest (by simp at hl ⊢; omega) (c :: acc)
            simp [hrec]

/-- Concatenating the lines of `splitlines text` gives back `text`. -/
theorem splitlines_join (text : List Char) : (splitlines text).flatten = text := by
  simpa using splitlinesAux_join_le text.length text (le_refl _) []

theorem splitlinesAux_ne_nil_le (n : Nat) :
    ∀ l : List Char, l.length ≤ n → ∀ acc : List Char,
      ∀ line ∈ splitlinesAux acc l, line ≠ [] := by
  induction n with
  | zero =>
      intro l hl acc line hmem
      have hnil : l = [] := List.length_eq_zero.mp (Nat.le_zero.mp hl)
      subst hnil
      rw [splitlinesAux_nil] at hmem
      by_cases h : acc = [] <;> simp [h] at hmem
      subst hmem; simpa using h
  | succ n ih =>
      intro l hl acc line hmem
      cases l with
      | nil =>
          rw [splitlinesAux_nil] at hmem
          by_cases h : acc = [] <;> simp [h] at hmem
          subst hmem; simpa using h
      | cons c rest =>
          by_cases hbr : isLineBreak c
          · by_cases hcr : c = '\r' ∧ rest.head? = some '\n'
            · obtain ⟨hc, hh⟩ := hcr
              subst hc
              cases rest with
              | nil => simp at hh
              | cons d rest2 =>
                  have hd : d = '\n' := by simpa using hh
                  subst hd
                  rw [splitlinesAux_crlf] at hmem
                  rcases List.mem_cons.mp hmem with h | h
                  · subst h; simp
                  · exact ih rest2 (by simp at hl ⊢; omega) [] line h
            · rw [splitlinesAux_break acc c rest hbr hcr] at hmem
              rcases List.mem_cons.mp hmem with h | h
              · subst h; simp
              · exact ih rest (by simp at hl ⊢; omega) [] line h
          · rw [splitlinesAux_other acc c rest (by simpa using hbr)] at hmem
            exact ih rest (by simp at hl ⊢; omega) (c :: acc) line hmem

/-- Every line of `splitlines text` is non-empty. -/
theorem splitlines_ne_nil (text : List Char) :
    ∀ line ∈ splitlines text, line ≠ [] :=
  splitlinesAux_ne_nil_le text.length text (le_refl _) []

/-! ### Basic facts about the chunker -/

theorem chunkAux_join (max_chars : Nat) (lines : List (List Char)) :
    ∀ current : List Char,
      (chunkAux max_chars current lines).flatten = current ++ lines.flatten := by
  induction lines with
  | nil =>
      intro current
      by_cases h : current = [] <;> simp [chunkAux, h]
  | cons line rest ih =>
      intro current
      by_cases h : current.length + line.length > max_chars
      · simp [chunkAux, h, ih]
      · simp [chunkAux, h, ih]

/-- Chunks emitted by `chunkAux` are each either within the budget or a
single whole member of `L` that alone exceeds the budget. -/
theorem chunkAux_size_bound (max_chars : Nat) (L : List (List Char))
    (lines : List (List Char)) :
    ∀ current : List Char,
      (∀ l ∈ lines, l ∈ L) →
      (current = [] ∨ current.length ≤ max_chars ∨
        (current ∈ L ∧ max_chars < current.length)) →
      ∀ c ∈ chunkAux max_chars current lines,
        c.length ≤ max_chars ∨ (c ∈ L ∧ max_chars < c.length) := by
  induction lines with
  | nil =>
      intro current _ hcur c hmem
      by_cases h : current = []
      · simp [chunkAux, h] at hmem
      · simp [chunkAux, h] at hmem
        subst hmem
        rcases hcur with h' | h' | h'
        · exact absurd h' h
        · exact Or.inl h'
        · exact Or.inr h'
  | cons line rest ih =>
      intro current hsub hcur c hmem
      have hline : line ∈ L := hsub line (List.mem_cons_self _ _)
      have hsub' : ∀ l ∈ rest, l ∈ L := fun l hl => hsub l (List.mem_cons_of_mem _ hl)
      by_cases h : current.length + line.length > max_chars
      · simp only [chunkAux, if_pos h, List.mem_cons] at hmem
        rcases hmem with rfl | hmem
        · rcases hcur with h' | h' | h'
          · subst h'; exact Or.inl (Nat.zero_le _)
          · exact Or.inl h'
          · exact Or.inr h'
        · refine ih line hsub' ?_ c hmem
          rcases le_or_lt line.length max_chars with hle | hlt
          · exact Or.inr (Or.inl hle)
          · exact Or.inr (Or.inr ⟨hline, hlt⟩)
      · simp only [chunkAux, if_neg h] at hmem
        refine ih (current ++ line) hsub' ?_ c hmem
        have : current.length + line.length ≤ max_chars := Nat.le_of_not_lt h
        exact Or.inr (Or.inl (by simpa using this))

/-- All chunks produced by `chunkAux` from a non-empty buffer and non-empty
lines are non-empty. -/
theorem chunkAux_ne_nil (max_chars : Nat) (lines : List (List Char)) :
    ∀ current : List Char, current ≠ [] → (∀ l ∈ lines, l ≠ []) →
      ∀ c ∈ chunkAux max_chars current lines, c ≠ [] := by
  induction lines with
  | nil =>
      intro current hcur _ c hmem
      simp [chunkAux, hcur] at hmem
      subst hmem; exact hcur
  | cons line rest ih =>
      intro current hcur hlines c hmem
      have hline : line ≠ [] := hlines line (List.mem_cons_self _ _)
      have hlines' : ∀ l ∈ rest, l ≠ [] := fun l hl => hlines l (List.mem_cons_of_mem _ hl)
      by_cases h : current.length + line.length > max_chars
      · simp only [chunkAux, if_pos h, List.mem_cons] at hmem
        rcases hmem with rfl | hmem
        · exact hcur
        · exact ih line hline hlines' c hmem
      · simp only [chunkAux, if_neg h] at hmem
        exact ih (current ++ line) (by simp [hline]) hlines' c hmem

/-! ### Claims about the chunker -/

/-- C1: for every input text and every positive character budget,
concatenating all chunks returned by `_chunk_text`, in order, equals the
input text exactly. -/
theorem chunk_text_concat (text : List Char) (max_chars : Nat)
    (h : 0 < max_chars) :
    (_chunk_text text max_chars).flatten = text := by
  unfold _chunk_text
  rw [chunkAux_join]
  simpa using splitlines_join text

/-- Witness for `chunk_text_concat` at a concrete input. -/
theorem chunk_text_concat_witness :
    (_chunk_text ['a', '\n', 'b', 'c'] 3).flatten = ['a', '\n', 'b', 'c'] :=
  chunk_text_concat ['a', '\n', 'b', 'c'] 3 (by decide)

/-- C2: for every input text and every positive budget, every chunk either
has length at most the budget, or is a single whole source line whose
length alone exceeds the budget. -/
theorem chunk_size_bound (text : List Char) (max_chars : Nat)
    (h : 0 < max_chars) :
    ∀ c ∈ _chunk_text text max_chars,
      c.length ≤ max_chars ∨ (c ∈ splitlines text ∧ max_chars < c.length) := by
  unfold _chunk_text
  exact chunkAux_size_bound max_chars (splitlines text) (splitlines text) []
    (fun l hl => hl) (Or.inl rfl)

/-- Witness for `chunk_size_bound` at a concrete input and chunk. -/
theorem chunk_size_bound_witness :
    (['a', '\n'] : List Char).length ≤ 3 ∨
      (['a', '\n'] ∈ splitlines ['a', '\n', 'b', 'c'] ∧
        3 < (['a', '\n'] : List Char).length) :=
  chunk_size_bound ['a', '\n', 'b', 'c'] 3 (by decide) ['a', '\n'] (by decide)

/-- C3 counterexample: with input `"abc"` and budget 1 (positive), the
chunker emits the empty chunk first — not every chunk is non-empty. -/
theorem chunk_nonempty_counterexample :
    (0 : Nat) < 1 ∧ ¬ (∀ c ∈ _chunk_text ['a', 'b', 'c'] 1, c ≠ []) := by
  decide

/-- C3 amended: every chunk other than the first is non-empty, and the
first chunk is empty exactly when the input's first line alone exceeds
the budget: an empty chunk forces an oversized first line, and an
oversized first line forces the first chunk to be empty. -/
theorem chunk_nonempty_amended (text : List Char) (max_chars : Nat)
    (hpos : 0 < max_chars) :
    (∀ c ∈ (_chunk_text text max_chars).drop 1, c ≠ []) ∧
    (∀ c ∈ (_chunk_text text max_chars).take 1, c = [] →
      ∃ l rest, splitlines text = l :: rest ∧ max_chars < l.length) ∧
    (∀ l rest, splitlines text = l :: rest → max_chars < l.length →
      (_chunk_text text max_chars).head? = some []) := by
  unfold _chunk_text
  have hlines := splitlines_ne_nil text
  rcases hsp : splitlines text with _ | ⟨l, rest⟩
  · simp [chunkAux]
  · have hl : l ≠ [] := hlines l (by rw [hsp]; exact List.mem_cons_self _ _)
    have hrest : ∀ x ∈ rest, x ≠ [] :=
      fun x hx => hlines x (by rw [hsp]; exact List.mem_cons_of_mem _ hx)
    by_cases hov : (0 : Nat) + l.length > max_chars
    · have hch : chunkAux max_chars [] (l :: rest) = [] :: chunkAux max_chars l rest := by
        simp only [chunkAux]
        rw [if_pos (by simpa using hov)]
      rw [hch]
      refine ⟨?_, ?_, ?_⟩
      · intro c hmem
        exact chunkAux_ne_nil max_chars rest l hl hrest c (by simpa using hmem)
      · intro c _ _
        exact ⟨l, rest, rfl, by omega⟩
      · intro l' rest' _ _
        rfl
    · have hch : chunkAux max_chars [] (l :: rest) = chunkAux max_chars l rest := by
        simp only [chunkAux]
        rw [if_neg (by simpa using hov)]
        simp
      rw [hch]
      have hall : ∀ c ∈ chunkAux max_chars l rest, c ≠ [] :=
        chunkAux_ne_nil max_chars rest l hl hrest
      refine ⟨?_, ?_, ?_⟩
      · intro c hmem
        exact hall c (List.drop_subset 1 _ hmem)
      · intro c hmem hc
        exact absurd hc (hall c (List.take_subset 1 _ hmem))
      · intro l' rest' heq hlen
        injection heq with h1 _
        subst h1
        exact absurd hlen (by omega)

/-- Witness for `chunk_nonempty_amended`: a concrete non-first chunk is
non-empty, and a concrete oversized first line yields an empty first
chunk. -/
theorem chunk_nonempty_amended_witness :
    (_chunk_text ['a', '\n', 'b', 'c'] 3).drop 1 = [['b', 'c']] ∧
    (['b', 'c'] : List Char) ≠ [] ∧
    (_chunk_text ['a', 'b', 'c'] 1).head? = some [] :=
  ⟨by decide,
    (chunk_nonempty_amended ['a', '\n', 'b', 'c'] 3 (by decide)).1
      ['b', 'c'] (by decide),
    (chunk_nonempty_amended ['a', 'b', 'c'] 1 (by decide)).2.2
      ['a', 'b', 'c'] [] (by decide) (by decide)⟩

/-! ### The pipeline model

`translate` raises `FileNotFoundError` / `ValueError` for bad inputs,
reads the file, chunks it, translates each chunk through
`_translate_chunk` with a single retry after `time.sleep(5)`, sleeps
`SLEEP_BETWEEN_CALLS` after each successful chunk, joins the cleaned
chunks with newlines and writes the output file.

The file system is an oracle `List Char → Option (List Char)` (path to
content, `none` when the path does not exist).  The outcomes of the
successive `_translate_chunk` invocations within one `translate` call are
an oracle `Nat → Except Err (List Char)` indexed by the invocation count.
Observable effects are recorded as an `Event` trace. -/

/-- Error kinds raised by the pipeline: `FileNotFoundError(srt_path)`,
`ValueError("target_lang is required")`, `ValueError("No response from
OpenAI")`, and errors raised by the remote call itself. -/
inductive Err where
  | fileNotFound (path : List Char)
  | invalidArgument
  | noResponse
  | remoteCallError (code : Nat)
deriving DecidableEq

/-- Observable side effects of a run, in order. -/
inductive Event where
  | readFile (path : List Char)
  | driverCall (chunk : List Char)
  | sleep (seconds : ℚ)
  | writeFile (path : List Char) (content : List Char)
  | beginLang (lang : List Char)
deriving DecidableEq

/-- `MAX_CHARS_PER_CHUNK = 4500`. -/
def MAX_CHARS_PER_CHUNK : Nat := 4500

/-- `SLEEP_BETWEEN_CALLS = 0.5`. -/
def SLEEP_BETWEEN_CALLS : ℚ := 1 / 2

/-- True exactly on `writeFile` events. -/
def Event.isWrite : Event → Bool
  | .writeFile _ _ => true
  | _ => false

/-- True exactly on `driverCall` events. -/
def Event.isDriverCall : Event → Bool
  | .driverCall _ => true
  | _ => false

/-- Language announced by a `beginLang` event, if any. -/
def Event.langOf : Event → Option (List Char)
  | .beginLang l => some l
  | _ => none

/-- The body of the per-chunk loop in `translate` (lines 141-152): call
`_translate_chunk`; on any failure sleep 5 seconds and call it once more;
a second failure propagates (skipping the between-calls sleep); a success
is followed by `time.sleep(SLEEP_BETWEEN_CALLS)`.  `k` is the number of
driver invocations made so far; the result carries the trace of this
iteration, the updated count, and the chunk's outcome. -/
def processChunk (driver : Nat → Except Err (List Char)) (k : Nat)
    (chunk : List Char) : List Event × Nat × Except Err (List Char) :=
  match driver k with
  | .ok t => ([.driverCall chunk, .sleep SLEEP_BETWEEN_CALLS], k + 1, .ok t)
  | .error _ =>
    match driver (k + 1) with
    | .ok t =>
        ([.driverCall chunk, .sleep 5, .driverCall chunk,
          .sleep SLEEP_BETWEEN_CALLS], k + 2, .ok t)
    | .error e =>
        ([.driverCall chunk, .sleep 5, .driverCall chunk], k + 2, .error e)

/-- The whole per-chunk loop of `translate`: process the chunks in order,
stopping at the first chunk whose retry also fails. -/
def processChunks (driver : Nat → Except Err (List Char)) :
    Nat → List (List Char) → List Event × Nat × Except Err (List (List Char))
  | k, [] => ([], k, .ok [])
  | k, chunk :: rest =>
    match processChunk driver k chunk with
    | (ev, k1, .error e) => (ev, k1, .error e)
    | (ev, k1, .ok t) =>
      match processChunks driver k1 rest with
      | (ev2, k2, r2) => (ev ++ ev2, k2, r2.map (t :: ·))

/-- Python whitespace characters (`str.strip()` with no argument). -/
def isPySpace (c : Char) : Bool :=
  decide ((9 ≤ c.toNat ∧ c.toNat ≤ 13) ∨ (28 ≤ c.toNat ∧ c.toNat ≤ 32) ∨
    c.toNat = 133 ∨ c.toNat = 160 ∨ c.toNat = 5760 ∨
    (8192 ≤ c.toNat ∧ c.toNat ≤ 8202) ∨ c.toNat = 8232 ∨ c.toNat = 8233 ∨
    c.toNat = 8239 ∨ c.toNat = 8287 ∨ c.toNat = 12288)

/-- Python `str.strip()`: drop whitespace from both ends. -/
def pyStrip (s : List Char) : List Char :=
  ((s.dropWhile isPySpace).reverse.dropWhile isPySpace).reverse

/-- Python `str.replace(pat, repl)`: replace every non-overlapping
occurrence of `pat`, scanning left to right. -/
def pyReplace (pat repl : List Char) : List Char → List Char
  | [] => []
  | c :: rest =>
    if h : pat ≠ [] ∧ pat.isPrefixOf (c :: rest) then
      repl ++ pyReplace pat repl ((c :: rest).drop pat.length)
    else
      c :: pyReplace pat repl rest
termination_by l => l.length
decreasing_by
  · simp only [List.length_drop, List.length_cons]
    have hp : 1 ≤ pat.length := by
      cases pat with
      | nil => exact absurd rfl h.1
      | cons p ps => simp
    omega
  · simp

/-- The string `"` followed by two more backticks: the code-fence marker
(written via character codes; 96 is the backtick). -/
def threeTicks : List Char := [Char.ofNat 96, Char.ofNat 96, Char.ofNat 96]

/-- The marker `` with an `srt` language tag. -/
def ticksSrt : List Char := threeTicks ++ ['s', 'r', 't']

/-- The response clean-up in `_translate_chunk` (line 107):
`content.strip().replace("<fence>srt", "").replace("<fence>", "").strip()`. -/
def cleanResponse (content : List Char) : List Char :=
  pyStrip (pyReplace threeTicks [] (pyReplace ticksSrt [] (pyStrip content)))

/-- `_translate_chunk`, as a function of the usable text content of the
remote capability's response (`none` when the response carries no usable
string content, in which case `ValueError("No response from OpenAI")` is
raised). -/
def _translate_chunk (responseContent : Option (List Char)) :
    Except Err (List Char) :=
  match responseContent with
  | some content => .ok (cleanResponse content)
  | none => .error .noResponse

/-- `pathlib.PurePath.name`: the component after the last `/`. -/
def nameOf (p : List Char) : List Char :=
  (p.reverse.takeWhile (fun c => c != '/')).reverse

/-- The leading directory part of a path, up to and including the last
`/` (empty when the path has no `/`). -/
def dirPrefixOf (p : List Char) : List Char :=
  (p.reverse.dropWhile (fun c => c != '/')).reverse

/-- `pathlib.PurePath.stem`: the name with its last suffix removed; a
dot at position 0 or at the very end of the name does not start a
suffix. -/
def stemOf (name : List Char) : List Char :=
  match name.reverse.dropWhile (fun c => c != '.') with
  | [] => name
  | _ :: preRev =>
    if preRev = [] then name
    else if name.reverse.takeWhile (fun c => c != '.') = [] then name
    else preRev.reverse

/-- `pathlib.PurePath.with_name`: same directory, new final component. -/
def withName (p newName : List Char) : List Char :=
  dirPrefixOf p ++ newName

/-- The output path `input_path.with_name(f"{target_lang}.{input_path.stem}.srt")`
computed by `translate`. -/
def outputPathOf (srt_path lang : List Char) : List Char :=
  withName srt_path (lang ++ ['.'] ++ stemOf (nameOf srt_path) ++ ['.', 's', 'r', 't'])

/-- The single-language pipeline `translate(srt_path, target_lang)`.
Checks `os.path.exists` then `target_lang`, reads the file, chunks,
translates every chunk (with the single retry of `processChunk`), strips
each translated chunk, joins with newlines, writes the output file and
returns its path together with the written content. -/
def translate (fs : List Char → Option (List Char))
    (driver : Nat → Except Err (List Char))
    (srt_path : List Char) (target_lang : Option (List Char)) :
    List Event × Except Err (List Char × List Char) :=
  match fs srt_path with
  | none => ([], .error (.fileNotFound srt_path))
  | some original_text =>
    match target_lang with
    | none => ([], .error .invalidArgument)
    | some lang =>
      if lang = [] then ([], .error .invalidArgument)
      else
        match processChunks driver 0 (_chunk_text original_text MAX_CHARS_PER_CHUNK) with
        | (ev, _, .error e) => (Event.readFile srt_path :: ev, .error e)
        | (ev, _, .ok translated_chunks) =>
          let final_text := List.intercalate ['\n'] (translated_chunks.map pyStrip)
          let output_path := outputPathOf srt_path lang
          (Event.readFile srt_path :: ev ++ [Event.writeFile output_path final_text],
            .ok (output_path, final_text))

/-- The 15 primary language codes of `translate_batch`. -/
def languages : List (List Char) :=
  ["en", "es-419", "es-ES", "pt-BR", "pt-PT", "fr", "de", "ar", "hi", "bn",
   "ur", "id", "vi", "tr", "zh-Hans"].map String.toList

/-- The 6 secondary language codes of `translate_batch`. -/
def secondary_langs : List (List Char) :=
  ["it", "ja", "ko", "th", "pl", "nl"].map String.toList

/-- `all_langs = languages + secondary_langs`. -/
def all_langs : List (List Char) := languages ++ secondary_langs

/-- The loop of `translate_batch`: print `Translating to {lang}...`
(recorded as `beginLang`), then run `translate`; an unrecovered error
propagates and aborts the remaining languages. -/
def batchAux (fs : List Char → Option (List Char))
    (driver : Nat → Except Err (List Char)) (file_path : List Char) :
    List (List Char) → List Event × Except Err (List (List Char))
  | [] => ([], .ok [])
  | lang :: rest =>
    match translate fs driver file_path (some lang) with
    | (ev, .error e) => (Event.beginLang lang :: ev, .error e)
    | (ev, .ok (out, _)) =>
      match batchAux fs driver file_path rest with
      | (ev2, r2) => (Event.beginLang lang :: ev ++ ev2, r2.map (out :: ·))

/-- `translate_batch(file_path)`: run `translate` for each code of
`all_langs` in order. -/
def translate_batch (fs : List Char → Option (List Char))
    (driver : Nat → Except Err (List Char)) (file_path : List Char) :
    List Event × Except Err (List (List Char)) :=
  batchAux fs driver file_path all_langs

/-- `true` exactly on successful results. -/
def exceptIsOk {ε α : Type} : Except ε α → Bool
  | .ok _ => true
  | .error _ => false

/-! ### Claims about the retry policy (C4, C5) -/

/-- C4: if the driver call fails on the first attempt and succeeds on the
second, the per-chunk loop makes exactly one retry after a 5-second sleep,
invokes the driver exactly twice, and the second attempt's value is the
chunk's final (successful) result. -/
theorem retry_second_attempt (driver : Nat → Except Err (List Char))
    (chunk : List Char) (e : Err) (t : List Char)
    (h0 : driver 0 = .error e) (h1 : driver 1 = .ok t) :
    processChunk driver 0 chunk =
      ([.driverCall chunk, .sleep 5, .driverCall chunk,
        .sleep SLEEP_BETWEEN_CALLS], 2, .ok t) ∧
    ((processChunk driver 0 chunk).1.filter Event.isDriverCall).length = 2 := by
  have hpc : processChunk driver 0 chunk =
      ([.driverCall chunk, .sleep 5, .driverCall chunk,
        .sleep SLEEP_BETWEEN_CALLS], 2, .ok t) := by
    simp [processChunk, h0, h1]
  exact ⟨hpc, by rw [hpc]; simp [Event.isDriverCall]⟩

/-- Witness for `retry_second_attempt` at a concrete driver stub. -/
theorem retry_second_attempt_witness :
    processChunk (fun k => if k = 0 then .error Err.noResponse else .ok ['x'])
        0 ['c'] =
      ([.driverCall ['c'], .sleep 5, .driverCall ['c'],
        .sleep SLEEP_BETWEEN_CALLS], 2, .ok ['x']) ∧
    ((processChunk (fun k => if k = 0 then .error Err.noResponse else .ok ['x'])
        0 ['c']).1.filter Event.isDriverCall).length = 2 :=
  retry_second_attempt _ ['c'] Err.noResponse ['x'] rfl rfl

theorem processChunk_no_write (driver : Nat → Except Err (List Char))
    (k : Nat) (chunk : List Char) :
    ∀ e ∈ (processChunk driver k chunk).1, Event.isWrite e = false := by
  cases hd : driver k with
  | ok t => simp [processChunk, hd, Event.isWrite]
  | error e0 =>
      cases hd2 : driver (k + 1) with
      | ok t => simp [processChunk, hd, hd2, Event.isWrite]
      | error e1 => simp [processChunk, hd, hd2, Event.isWrite]

theorem processChunks_no_write (driver : Nat → Except Err (List Char))
    (chunks : List (List Char)) :
    ∀ k, ∀ e ∈ (processChunks driver k chunks).1, Event.isWrite e = false := by
  induction chunks with
  | nil => intro k e he; simp [processChunks] at he
  | cons c rest ih =>
      intro k e he
      rcases hpc : processChunk driver k c with ⟨ev, k1, r⟩
      have hev : ∀ e ∈ ev, Event.isWrite e = false := by
        intro e he'
        exact processChunk_no_write driver k c e (by rw [hpc]; exact he')
      cases r with
      | error er =>
          rw [show processChunks driver k (c :: rest) = (ev, k1, .error er) by
            simp [processChunks, hpc]] at he
          exact hev e he
      | ok t =>
          rcases hps : processChunks driver k1 rest with ⟨ev2, k2, r2⟩
          rw [show processChunks driver k (c :: rest)
              = (ev ++ ev2, k2, r2.map (t :: ·)) by
            simp [processChunks, hpc, hps]] at he
          rcases List.mem_append.mp he with h | h
          · exact hev e h
          · exact ih k1 e (by rw [hps]; exact h)

/-- If every chunk of a prefix succeeds and the driver then fails on both
attempts for the next chunk, the whole loop propagates the retry error,
wherever in the list the failing chunk sits. -/
theorem processChunks_error_of (driver : Nat → Except Err (List Char))
    (failing : List Char) (post : List (List Char)) (e0 e1 : Err) :
    ∀ (pre : List (List Char)) (k : Nat),
      exceptIsOk (processChunks driver k pre).2.2 = true →
      driver (processChunks driver k pre).2.1 = .error e0 →
      driver ((processChunks driver k pre).2.1 + 1) = .error e1 →
      (processChunks driver k (pre ++ failing :: post)).2.2 = .error e1 := by
  intro pre
  induction pre with
  | nil =>
      intro k _ h0 h1
      simp only [processChunks] at h0 h1
      rw [List.nil_append]
      simp [processChunks, processChunk, h0, h1]
  | cons c0 pre' ih =>
      intro k hpre h0 h1
      rcases hpc : processChunk driver k c0 with ⟨ev1, k1, r1⟩
      cases r1 with
      | error er =>
          exfalso
          rw [show processChunks driver k (c0 :: pre') = (ev1, k1, .error er) by
            simp [processChunks, hpc]] at hpre
          simp [exceptIsOk] at hpre
      | ok t =>
          rcases hps : processChunks driver k1 pre' with ⟨ev2, k2, r2⟩
          have hcons : processChunks driver k (c0 :: pre')
              = (ev1 ++ ev2, k2, r2.map (t :: ·)) := by
            simp [processChunks, hpc, hps]
          rw [hcons] at hpre h0 h1
          have hpre' : exceptIsOk (processChunks driver k1 pre').2.2 = true := by
            rw [hps]
            cases r2 with
            | error er2 => simp [exceptIsOk, Except.map] at hpre
            | ok ts2 => simp [exceptIsOk]
          have h0' : driver (processChunks driver k1 pre').2.1 = .error e0 := by
            rw [hps]; exact h0
          have h1' : driver ((processChunks driver k1 pre').2.1 + 1) = .error e1 := by
            rw [hps]; exact h1
          have hrec := ih k1 hpre' h0' h1'
          rcases hps2 : processChunks driver k1 (pre' ++ failing :: post)
            with ⟨ev3, k3, r3⟩
          rw [hps2] at hrec
          simp only at hrec
          rw [List.cons_append]
          rw [show processChunks driver k (c0 :: (pre' ++ failing :: post))
              = (ev1 ++ ev3, k3, r3.map (t :: ·)) by
            simp [processChunks, hpc, hps2]]
          simp only
          rw [hrec]
          rfl

/-- C5: for every chunk position, if every earlier chunk succeeded and
the driver fails on both the first attempt and the single retry for that
chunk, `translate` terminates propagating the retry's error and writes no
output file. -/
theorem retry_failure_aborts (fs : List Char → Option (List Char))
    (driver : Nat → Except Err (List Char)) (path lang content : List Char)
    (pre : List (List Char)) (failing : List Char) (post : List (List Char))
    (e0 e1 : Err)
    (hfs : fs path = some content) (hlang : lang ≠ [])
    (hsplit : _chunk_text content MAX_CHARS_PER_CHUNK = pre ++ failing :: post)
    (hpre : exceptIsOk (processChunks driver 0 pre).2.2 = true)
    (h0 : driver (processChunks driver 0 pre).2.1 = .error e0)
    (h1 : driver ((processChunks driver 0 pre).2.1 + 1) = .error e1) :
    (translate fs driver path (some lang)).2 = .error e1 ∧
    ∀ ev ∈ (translate fs driver path (some lang)).1, Event.isWrite ev = false := by
  have herr : (processChunks driver 0
      (_chunk_text content MAX_CHARS_PER_CHUNK)).2.2 = .error e1 := by
    rw [hsplit]
    exact processChunks_error_of driver failing post e0 e1 pre 0 hpre h0 h1
  rcases hpcs : processChunks driver 0 (_chunk_text content MAX_CHARS_PER_CHUNK)
    with ⟨ev, k, r⟩
  rw [hpcs] at herr
  simp only at herr
  subst herr
  have htr : translate fs driver path (some lang)
      = (Event.readFile path :: ev, .error e1) := by
    simp [translate, hfs, hlang, hpcs]
  rw [htr]
  refine ⟨rfl, ?_⟩
  intro evt hevt
  rcases List.mem_cons.mp hevt with rfl | h
  · rfl
  · exact processChunks_no_write driver _ 0 evt (by rw [hpcs]; exact h)

/-- A run of non-line-break characters is consumed into the accumulator. -/
theorem splitlinesAux_no_break (w : List Char)
    (hw : ∀ c ∈ w, isLineBreak c = false) :
    ∀ acc s, splitlinesAux acc (w ++ s) = splitlinesAux (w.reverse ++ acc) s := by
  induction w with
  | nil => intro acc s; simp
  | cons c w' ih =>
      intro acc s
      have hc : isLineBreak c = false := hw c (List.mem_cons_self _ _)
      rw [List.cons_append, splitlinesAux_other acc c (w' ++ s) hc,
        ih (fun d hd => hw d (List.mem_cons_of_mem _ hd)) (c :: acc) s]
      simp

theorem chunkAux_cons_flush (max_chars : Nat) (current line : List Char)
    (rest : List (List Char)) (h : current.length + line.length > max_chars) :
    chunkAux max_chars current (line :: rest)
      = current :: chunkAux max_chars line rest := by
  simp only [chunkAux]
  rw [if_pos h]

theorem chunkAux_cons_add (max_chars : Nat) (current line : List Char)
    (rest : List (List Char)) (h : ¬(current.length + line.length > max_chars)) :
    chunkAux max_chars current (line :: rest)
      = chunkAux max_chars (current ++ line) rest := by
  simp only [chunkAux]
  rw [if_neg h]

/-- Witness for `retry_failure_aborts`: an input that chunks into two
pieces (a 4500-character first line and a one-character second line) and
a driver stub that succeeds on the first chunk but fails on both attempts
for the second chunk. -/
theorem retry_failure_aborts_witness :
    (translate (fun _ => some (List.replicate 4499 'x' ++ ['\n', 'y']))
        (fun k => if k = 0 then .ok ['t'] else .error Err.noResponse)
        ['a'] (some ['f', 'r'])).2 = .error Err.noResponse := by
  have hx : ∀ c ∈ List.replicate 4499 'x', isLineBreak c = false := by
    intro c hc
    rw [List.eq_of_mem_replicate hc]
    decide
  have hline : splitlines (List.replicate 4499 'x' ++ ['\n', 'y'])
      = [List.replicate 4499 'x' ++ ['\n'], ['y']] := by
    unfold splitlines
    rw [splitlinesAux_no_break (List.replicate 4499 'x') hx [] ('\n' :: ['y'])]
    rw [splitlinesAux_break ((List.replicate 4499 'x').reverse ++ []) '\n' ['y']
      (by decide) (by decide)]
    rw [splitlinesAux_other [] 'y' [] (by decide), splitlinesAux_nil]
    rw [if_neg (by decide : ¬ (['y'] : List Char) = [])]
    rw [List.append_nil, List.reverse_reverse]
    rfl
  have hsplit : _chunk_text (List.replicate 4499 'x' ++ ['\n', 'y'])
      MAX_CHARS_PER_CHUNK
      = [List.replicate 4499 'x' ++ ['\n']] ++ ['y'] :: [] := by
    unfold _chunk_text
    rw [hline]
    rw [chunkAux_cons_add MAX_CHARS_PER_CHUNK []
      (List.replicate 4499 'x' ++ ['\n']) [['y']] (by
        simp only [List.length_nil, List.length_append, List.length_replicate,
          List.length_cons, MAX_CHARS_PER_CHUNK]
        omega)]
    rw [List.nil_append]
    rw [chunkAux_cons_flush MAX_CHARS_PER_CHUNK
      (List.replicate 4499 'x' ++ ['\n']) ['y'] [] (by
        simp only [List.length_nil, List.length_append, List.length_replicate,
          List.length_cons, MAX_CHARS_PER_CHUNK]
        omega)]
    rw [show chunkAux MAX_CHARS_PER_CHUNK ['y'] [] = [['y']] from by
      simp only [chunkAux]
      rw [if_neg (by decide : ¬ (['y'] : List Char) = [])]]
    rfl
  exact (retry_failure_aborts
    (fun _ => some (List.replicate 4499 'x' ++ ['\n', 'y']))
    (fun k => if k = 0 then .ok ['t'] else .error Err.noResponse)
    ['a'] ['f', 'r'] (List.replicate 4499 'x' ++ ['\n', 'y'])
    [List.replicate 4499 'x' ++ ['\n']] ['y'] [] Err.noResponse Err.noResponse
    rfl (by decide) hsplit rfl rfl rfl).1

/-! ### Claims about the pipeline preconditions, naming and empty input
(C6, C7, C10) -/

/-- C6: `translate` fails with `FileNotFoundError` when the input path
does not exist, and with `ValueError` when the target language is absent
or empty; in both cases no file is read, nothing is written and the
driver is never invoked (the event trace is empty). -/
theorem translate_preconditions (fs : List Char → Option (List Char))
    (driver : Nat → Except Err (List Char)) (path : List Char)
    (tl : Option (List Char)) :
    (fs path = none →
      translate fs driver path tl = ([], .error (.fileNotFound path))) ∧
    (∀ content, fs path = some content → (tl = none ∨ tl = some []) →
      translate fs driver path tl = ([], .error .invalidArgument)) := by
  constructor
  · intro h
    simp [translate, h]
  · intro content hc htl
    rcases htl with rfl | rfl
    · simp [translate, hc]
    · simp [translate, hc]

/-- Witness for `translate_preconditions`: both failure modes at concrete
inputs. -/
theorem translate_preconditions_witness :
    translate (fun _ => none) (fun _ => .ok ['x']) ['a'] (some ['f', 'r']) =
      ([], .error (.fileNotFound ['a'])) ∧
    translate (fun _ => some ['x']) (fun _ => .ok ['x']) ['a'] none =
      ([], .error .invalidArgument) :=
  ⟨(translate_preconditions (fun _ => none) (fun _ => .ok ['x']) ['a']
      (some ['f', 'r'])).1 rfl,
    (translate_preconditions (fun _ => some ['x']) (fun _ => .ok ['x']) ['a']
      none).2 ['x'] rfl (Or.inl rfl)⟩

/-- C7: on success the returned output path is the input's directory plus
`<lang>.<stem of input name>.srt`. -/
theorem translate_output_naming (fs : List Char → Option (List Char))
    (driver : Nat → Except Err (List Char)) (path lang content out txt : List Char)
    (hfs : fs path = some content) (hlang : lang ≠ [])
    (hok : (translate fs driver path (some lang)).2 = .ok (out, txt)) :
    out = dirPrefixOf path ++
      (lang ++ ['.'] ++ stemOf (nameOf path) ++ ['.', 's', 'r', 't']) := by
  rcases hpc : processChunks driver 0 (_chunk_text content MAX_CHARS_PER_CHUNK)
    with ⟨ev, k, r⟩
  cases r with
  | error e =>
      have hres : (translate fs driver path (some lang)).2 = .error e := by
        simp [translate, hfs, hlang, hpc]
      rw [hres] at hok
      exact absurd hok (by simp)
  | ok ts =>
      have hres : (translate fs driver path (some lang)).2 =
          .ok (outputPathOf path lang, List.intercalate ['\n'] (ts.map pyStrip)) := by
        simp [translate, hfs, hlang, hpc]
      rw [hres] at hok
      have hpair : outputPathOf path lang = out := by
        have := (Except.ok.inj hok)
        exact congrArg Prod.fst this
      rw [← hpair]
      rfl

/-- Witness for `translate_output_naming`: input `movie.srt` with
language `fr` yields output path `fr.movie.srt` beside the input. -/
theorem translate_output_naming_witness :
    "fr.movie.srt".toList = dirPrefixOf "movie.srt".toList ++
      ("fr".toList ++ ['.'] ++ stemOf (nameOf "movie.srt".toList) ++
        ['.', 's', 'r', 't']) :=
  translate_output_naming (fun _ => some []) (fun _ => .ok ['x'])
    "movie.srt".toList "fr".toList [] "fr.movie.srt".toList []
    rfl (by decide) rfl

/-- C10: an existing empty input with a non-empty language code succeeds
with no driver invocation: zero chunks, the empty output document is
written, and the output path is returned. -/
theorem translate_empty_input (fs : List Char → Option (List Char))
    (driver : Nat → Except Err (List Char)) (path lang : List Char)
    (hfs : fs path = some []) (hlang : lang ≠ []) :
    _chunk_text [] MAX_CHARS_PER_CHUNK = [] ∧
    translate fs driver path (some lang) =
      ([Event.readFile path, Event.writeFile (outputPathOf path lang) []],
        .ok (outputPathOf path lang, [])) := by
  refine ⟨rfl, ?_⟩
  simp [translate, hfs, hlang, processChunks, List.intercalate,
    _chunk_text, splitlines, splitlinesAux, chunkAux]

/-- Witness for `translate_empty_input` at a concrete empty file. -/
theorem translate_empty_input_witness :
    _chunk_text [] MAX_CHARS_PER_CHUNK = [] ∧
    translate (fun _ => some []) (fun _ => .ok ['x']) "movie.srt".toList
        (some "fr".toList) =
      ([Event.readFile "movie.srt".toList,
        Event.writeFile (outputPathOf "movie.srt".toList "fr".toList) []],
        .ok (outputPathOf "movie.srt".toList "fr".toList, [])) :=
  translate_empty_input _ _ "movie.srt".toList "fr".toList rfl (by decide)

/-! ### Claims about the batch orchestrator (C9) -/

theorem processChunk_langOf (driver : Nat → Except Err (List Char))
    (k : Nat) (chunk : List Char) :
    ∀ e ∈ (processChunk driver k chunk).1, Event.langOf e = none := by
  cases hd : driver k with
  | ok t => simp [processChunk, hd, Event.langOf]
  | error e0 =>
      cases hd2 : driver (k + 1) with
      | ok t => simp [processChunk, hd, hd2, Event.langOf]
      | error e1 => simp [processChunk, hd, hd2, Event.langOf]

theorem processChunks_langOf (driver : Nat → Except Err (List Char))
    (chunks : List (List Char)) :
    ∀ k, ∀ e ∈ (processChunks driver k chunks).1, Event.langOf e = none := by
  induction chunks with
  | nil => intro k e he; simp [processChunks] at he
  | cons c rest ih =>
      intro k e he
      rcases hpc : processChunk driver k c with ⟨ev, k1, r⟩
      have hev : ∀ e ∈ ev, Event.langOf e = none := by
        intro e he'
        exact processChunk_langOf driver k c e (by rw [hpc]; exact he')
      cases r with
      | error er =>
          rw [show processChunks driver k (c :: rest) = (ev, k1, .error er) by
            simp [processChunks, hpc]] at he
          exact hev e he
      | ok t =>
          rcases hps : processChunks driver k1 rest with ⟨ev2, k2, r2⟩
          rw [show processChunks driver k (c :: rest)
              = (ev ++ ev2, k2, r2.map (t :: ·)) by
            simp [processChunks, hpc, hps]] at he
          rcases List.mem_append.mp he with h | h
          · exact hev e h
          · exact ih k1 e (by rw [hps]; exact h)

theorem translate_langOf (fs : List Char → Option (List Char))
    (driver : Nat → Except Err (List Char)) (path : List Char)
    (tl : Option (List Char)) :
    ∀ e ∈ (translate fs driver path tl).1, Event.langOf e = none := by
  intro e he
  cases hfs : fs path with
  | none =>
      rw [show translate fs driver path tl = ([], .error (.fileNotFound path)) by
        simp [translate, hfs]] at he
      simp at he
  | some content =>
      cases tl with
      | none =>
          rw [show translate fs driver path none = ([], .error .invalidArgument) by
            simp [translate, hfs]] at he
          simp at he
      | some lang =>
          by_cases hl : lang = []
          · rw [show translate fs driver path (some lang)
                = ([], .error .invalidArgument) by simp [translate, hfs, hl]] at he
            simp at he
          · rcases hpc : processChunks driver 0
                (_chunk_text content MAX_CHARS_PER_CHUNK) with ⟨ev, k, r⟩
            have hev : ∀ e ∈ ev, Event.langOf e = none := by
              intro e he'
              exact processChunks_langOf driver _ 0 e (by rw [hpc]; exact he')
            cases r with
            | error er =>
                rw [show translate fs driver path (some lang)
                    = (Event.readFile path :: ev, .error er) by
                  simp [translate, hfs, hl, hpc]] at he
                rcases List.mem_cons.mp he with h | h
                · subst h; rfl
                · exact hev e h
            | ok ts =>
                rw [show translate fs driver path (some lang)
                    = (Event.readFile path ::
                        (ev ++ [Event.writeFile (outputPathOf path lang)
                          (List.intercalate ['\n'] (ts.map pyStrip))]),
                        .ok (outputPathOf path lang,
                          List.intercalate ['\n'] (ts.map pyStrip))) by
                  simp [translate, hfs, hl, hpc]] at he
                rcases List.mem_cons.mp he with h | h
                · subst h; rfl
                · rcases List.mem_append.mp h with h' | h'
                  · exact hev e h'
                  · simp only [List.mem_singleton] at h'
                    subst h'; rfl

theorem batchAux_trace (fs : List Char → Option (List Char))
    (driver : Nat → Except Err (List Char)) (path : List Char) :
    ∀ langs : List (List Char),
      (∀ lang ∈ langs, exceptIsOk (translate fs driver path (some lang)).2 = true) →
      ((batchAux fs driver path langs).1.filterMap Event.langOf) = langs := by
  intro langs
  induction langs with
  | nil => intro _; simp [batchAux]
  | cons lang rest ih =>
      intro hall
      have hok := hall lang (List.mem_cons_self _ _)
      rcases htr : translate fs driver path (some lang) with ⟨ev, r⟩
      have hev : ∀ e ∈ ev, Event.langOf e = none := by
        intro e he
        exact translate_langOf fs driver path (some lang) e (by rw [htr]; exact he)
      cases r with
      | error e =>
          rw [htr] at hok
          simp [exceptIsOk] at hok
      | ok val =>
          rcases val with ⟨out, txt⟩
          rcases hb : batchAux fs driver path rest with ⟨ev2, r2⟩
          have hrec := ih (fun l hl => hall l (List.mem_cons_of_mem _ hl))
          rw [hb] at hrec
          rw [show batchAux fs driver path (lang :: rest)
              = (Event.beginLang lang :: ev ++ ev2, r2.map (out :: ·)) by
            simp [batchAux, htr, hb]]
          simp only [List.filterMap_cons, List.filterMap_append, Event.langOf]

          rw [List.filterMap_eq_nil_iff.mpr hev, hrec]
          rfl

/-- C9: when every language's run succeeds, `translate_batch` runs the
single-language pipeline once per configured language code, strictly in
list order; the configuration is exactly the 21 documented codes (15
primary then 6 secondary), starting with `en` and ending with `nl`. -/
theorem translate_batch_coverage (fs : List Char → Option (List Char))
    (driver : Nat → Except Err (List Char)) (file_path : List Char)
    (hall : ∀ lang ∈ all_langs,
      exceptIsOk (translate fs driver file_path (some lang)).2 = true) :
    ((translate_batch fs driver file_path).1.filterMap Event.langOf) = all_langs ∧
    all_langs = ["en", "es-419", "es-ES", "pt-BR", "pt-PT", "fr", "de", "ar",
      "hi", "bn", "ur", "id", "vi", "tr", "zh-Hans", "it", "ja", "ko", "th",
      "pl", "nl"].map String.toList ∧
    languages.length = 15 ∧ secondary_langs.length = 6 ∧
    all_langs.length = 21 := by
  exact ⟨batchAux_trace fs driver file_path all_langs hall, rfl, rfl, rfl, rfl⟩

/-- Witness for `translate_batch_coverage`: a concrete file system and an
always-succeeding driver stub. -/
theorem translate_batch_coverage_witness :
    ((translate_batch (fun _ => some ['x']) (fun _ => .ok ['x'])
        ['a']).1.filterMap Event.langOf) = all_langs ∧
    all_langs = ["en", "es-419", "es-ES", "pt-BR", "pt-PT", "fr", "de", "ar",
      "hi", "bn", "ur", "id", "vi", "tr", "zh-Hans", "it", "ja", "ko", "th",
      "pl", "nl"].map String.toList ∧
    languages.length = 15 ∧ secondary_langs.length = 6 ∧
    all_langs.length = 21 :=
  translate_batch_coverage (fun _ => some ['x']) (fun _ => .ok ['x']) ['a']
    (by decide)

/-! ### The response clean-up (C8)

`_translate_chunk` removes the fence markers everywhere in the response —
`str.replace` is a global replacement — not only at its boundaries.  The
lemmas below establish the behaviour of `pyReplace` and `pyStrip` needed
to settle the claim. -/

theorem pyReplace_nil (pat repl : List Char) : pyReplace pat repl [] = [] :=
  pyReplace.eq_1 pat repl

theorem pyReplace_matched (pat repl : List Char) (c : Char) (rest : List Char)
    (h : pat ≠ [] ∧ pat.isPrefixOf (c :: rest)) :
    pyReplace pat repl (c :: rest) =
      repl ++ pyReplace pat repl ((c :: rest).drop pat.length) := by
  rw [pyReplace.eq_2, dif_pos h]

theorem pyReplace_nomatch (pat repl : List Char) (c : Char) (rest : List Char)
    (h : ¬ (pat ≠ [] ∧ pat.isPrefixOf (c :: rest))) :
    pyReplace pat repl (c :: rest) = c :: pyReplace pat repl rest := by
  rw [pyReplace.eq_2, dif_neg h]

/-- If the pattern's first character does not occur in `s`, a global
replacement leaves `s` unchanged. -/
theorem pyReplace_not_mem (pat repl : List Char) (p0 : Char) (ps : List Char)
    (hpat : pat = p0 :: ps) :
    ∀ s : List Char, p0 ∉ s → pyReplace pat repl s = s := by
  intro s
  induction s with
  | nil => intro _; exact pyReplace_nil pat repl
  | cons c rest ih =>
      intro hmem
      have hc : p0 ≠ c := fun h => hmem (h ▸ List.mem_cons_self c rest)
      have hcond : ¬ (pat ≠ [] ∧ pat.isPrefixOf (c :: rest)) := by
        rintro ⟨-, hp⟩
        rw [hpat, List.isPrefixOf_iff_prefix] at hp
        exact hc (List.cons_prefix_cons.mp hp).1
      rw [pyReplace_nomatch pat repl c rest hcond,
        ih (fun h => hmem (List.mem_cons_of_mem _ h))]

/-- Length of the initial run of backticks. -/
def tickRun (s : List Char) : Nat :=
  (s.takeWhile (fun c => c == Char.ofNat 96)).length

theorem tickRun_cons_tick (x : List Char) :
    tickRun (Char.ofNat 96 :: x) = 1 + tickRun x := by
  simp [tickRun, List.takeWhile_cons]
  omega

theorem tickRun_cons_other (c : Char) (x : List Char) (h : c ≠ Char.ofNat 96) :
    tickRun (c :: x) = 0 := by
  simp [tickRun, List.takeWhile_cons, h]

theorem two_le_tickRun (x : List Char) (h : 2 ≤ tickRun x) :
    [Char.ofNat 96, Char.ofNat 96] <+: x := by
  cases x with
  | nil => simp [tickRun] at h
  | cons c x2 =>
      by_cases hc : c = Char.ofNat 96
      · subst hc
        cases x2 with
        | nil => rw [tickRun_cons_tick] at h; simp [tickRun] at h
        | cons d x3 =>
            by_cases hd : d = Char.ofNat 96
            · subst hd; exact ⟨x3, rfl⟩
            · rw [tickRun_cons_tick, tickRun_cons_other d x3 hd] at h; omega
      · rw [tickRun_cons_other c x2 hc] at h; omega

theorem prefix_two_ticks_le (x : List Char)
    (h : [Char.ofNat 96, Char.ofNat 96] <+: x) : 2 ≤ tickRun x := by
  obtain ⟨t, ht⟩ := h
  rw [← ht, show ([Char.ofNat 96, Char.ofNat 96] ++ t)
      = Char.ofNat 96 :: (Char.ofNat 96 :: t) from rfl,
    tickRun_cons_tick, tickRun_cons_tick]
  omega

/-- Replacing all triple-backtick fences leaves a text with no
triple-backtick fence anywhere; moreover the initial tick run does not
grow when it was at most one. -/
theorem replace_ticks_no_fence_le (n : Nat) :
    ∀ s : List Char, s.length ≤ n →
      ¬ (threeTicks <:+: pyReplace threeTicks [] s) ∧
      (tickRun s ≤ 1 → tickRun (pyReplace threeTicks [] s) ≤ tickRun s) := by
  induction n with
  | zero =>
      intro s hl
      have hnil : s = [] := List.length_eq_zero.mp (Nat.le_zero.mp hl)
      subst hnil
      rw [pyReplace_nil]
      refine ⟨fun hinf => ?_, fun _ => le_refl _⟩
      have := hinf.length_le
      simp [threeTicks] at this
  | succ n ih =>
      intro s hl
      cases s with
      | nil =>
          rw [pyReplace_nil]
          refine ⟨fun hinf => ?_, fun _ => le_refl _⟩
          have := hinf.length_le
          simp [threeTicks] at this
      | cons c rest =>
          by_cases hpre : threeTicks.isPrefixOf (c :: rest)
          · rw [pyReplace_matched threeTicks [] c rest ⟨by decide, hpre⟩,
              List.nil_append]
            obtain ⟨t, ht⟩ := List.isPrefixOf_iff_prefix.mp hpre
            have hdrop : (c :: rest).drop threeTicks.length = t := by
              rw [← ht]
              exact List.drop_left threeTicks t
            rw [hdrop]
            have hlen : t.length ≤ n := by
              have hls : (c :: rest).length = threeTicks.length + t.length := by
                rw [← ht, List.length_append]
              rw [hls] at hl
              simp [threeTicks] at hl
              omega
            obtain ⟨ih1, ih2⟩ := ih t hlen
            refine ⟨ih1, fun htr => ?_⟩
            exfalso
            have hshape : c :: rest =
                Char.ofNat 96 :: Char.ofNat 96 :: Char.ofNat 96 :: t := by
              rw [← ht]; rfl
            rw [hshape, tickRun_cons_tick, tickRun_cons_tick,
              tickRun_cons_tick] at htr
            omega
          · have hcond : ¬ (threeTicks ≠ [] ∧ threeTicks.isPrefixOf (c :: rest)) :=
              fun h => hpre h.2
            rw [pyReplace_nomatch threeTicks [] c rest hcond]
            have hlen : rest.length ≤ n := by
              simp at hl; omega
            obtain ⟨ih1, ih2⟩ := ih rest hlen
            by_cases hc : c = Char.ofNat 96
            · subst hc
              have hr2 : tickRun rest ≤ 1 := by
                by_contra hgt
                push_neg at hgt
                obtain ⟨x3, hx⟩ := two_le_tickRun rest (by omega)
                apply hpre
                rw [List.isPrefixOf_iff_prefix]
                exact ⟨x3, by rw [← hx]; rfl⟩
              have hr' : tickRun (pyReplace threeTicks [] rest) ≤ tickRun rest :=
                ih2 hr2
              constructor
              · intro hinf
                rcases List.infix_cons_iff.mp hinf with hp | hi
                · obtain ⟨t2, ht2⟩ := hp
                  have h2p : [Char.ofNat 96, Char.ofNat 96] <+:
                      pyReplace threeTicks [] rest := by
                    refine ⟨t2, ?_⟩
                    have := ht2
                    rw [show (threeTicks ++ t2)
                        = Char.ofNat 96 :: ([Char.ofNat 96, Char.ofNat 96] ++ t2)
                        from rfl] at this
                    exact (List.cons.injEq _ _ _ _ ▸ this :
                      _ ∧ _).2
                  have := prefix_two_ticks_le _ h2p
                  omega
                · exact ih1 hi
              · intro hs1
                rw [tickRun_cons_tick] at hs1 ⊢
                rw [tickRun_cons_tick]
                omega
            · constructor
              · intro hinf
                rcases List.infix_cons_iff.mp hinf with hp | hi
                · obtain ⟨t2, ht2⟩ := hp
                  apply hc
                  have : Char.ofNat 96 = c := by
                    have h0 := congrArg (fun l => l.head?) ht2
                    simpa [threeTicks] using h0
                  exact this.symm
                · exact ih1 hi
              · intro _
                rw [tickRun_cons_other c _ hc, tickRun_cons_other c _ hc]

theorem dropWhile_head_not (p : Char → Bool) :
    ∀ (l : List Char) (c : Char) (t : List Char),
      l.dropWhile p = c :: t → p c = false := by
  intro l
  induction l with
  | nil => intro c t h; simp [List.dropWhile] at h
  | cons a as ih =>
      intro c t h
      by_cases hp : p a = true
      · rw [List.dropWhile_cons, if_pos hp] at h
        exact ih c t h
      · rw [List.dropWhile_cons, if_neg hp] at h
        injection h with h1 _
        subst h1
        exact Bool.eq_false_iff.mpr hp

theorem dropWhile_idem (p : Char → Bool) (l : List Char) :
    (l.dropWhile p).dropWhile p = l.dropWhile p := by
  cases h : l.dropWhile p with
  | nil => simp
  | cons c t =>
      have hc := dropWhile_head_not p l c t h
      rw [List.dropWhile_cons, if_neg (by simp [hc])]

/-- The stripped text is an infix of the original text. -/
theorem pyStrip_infix_self (s : List Char) : pyStrip s <:+: s := by
  have h1 : s.dropWhile isPySpace <:+ s := List.dropWhile_suffix _
  have h2 : (s.dropWhile isPySpace).reverse.dropWhile isPySpace <:+
      (s.dropWhile isPySpace).reverse := List.dropWhile_suffix _
  have h3 : ((s.dropWhile isPySpace).reverse.dropWhile isPySpace).reverse <+:
      s.dropWhile isPySpace := by
    rw [← List.reverse_suffix]
    simpa using h2
  exact (h3.isInfix).trans h1.isInfix

/-- `strip` is idempotent. -/
theorem pyStrip_idem (s : List Char) : pyStrip (pyStrip s) = pyStrip s := by
  have hA : (s.dropWhile isPySpace).dropWhile isPySpace = s.dropWhile isPySpace :=
    dropWhile_idem isPySpace s
  have hX : ((s.dropWhile isPySpace).reverse.dropWhile isPySpace).dropWhile isPySpace
      = (s.dropWhile isPySpace).reverse.dropWhile isPySpace :=
    dropWhile_idem isPySpace (s.dropWhile isPySpace).reverse
  have hstep1 : (pyStrip s).dropWhile isPySpace = pyStrip s := by
    cases hx : pyStrip s with
    | nil => simp
    | cons c t =>
        have hpre : pyStrip s <+: s.dropWhile isPySpace := by
          unfold pyStrip
          rw [← List.reverse_suffix]
          simpa using List.dropWhile_suffix
            (l := (s.dropWhile isPySpace).reverse) isPySpace
        rw [hx] at hpre
        obtain ⟨u, hu⟩ := hpre
        have hc : isPySpace c = false :=
          dropWhile_head_not isPySpace s c (t ++ u) (by rw [← hu]; rfl)
        rw [List.dropWhile_cons, if_neg (by simp [hc])]
  unfold pyStrip at hstep1 ⊢
  rw [hstep1, List.reverse_reverse, hX]

/-- C8 counterexample: the response `a<fence>b` (one code fence in the
middle of the content, no surrounding whitespace and no surrounding
fence) is returned as `ab`: the inner fence was removed, so the inner
content is not left unchanged. -/
theorem cleanup_counterexample :
    _translate_chunk (some ['a', Char.ofNat 96, Char.ofNat 96,
        Char.ofNat 96, 'b']) = .ok ['a', 'b'] ∧
    pyStrip ['a', Char.ofNat 96, Char.ofNat 96, Char.ofNat 96, 'b'] =
      ['a', Char.ofNat 96, Char.ofNat 96, Char.ofNat 96, 'b'] ∧
    ¬ (threeTicks <+: ['a', Char.ofNat 96, Char.ofNat 96, Char.ofNat 96, 'b']) ∧
    ¬ (threeTicks <:+ ['a', Char.ofNat 96, Char.ofNat 96, Char.ofNat 96, 'b']) ∧
    ['a', 'b'] ≠ ['a', Char.ofNat 96, Char.ofNat 96, Char.ofNat 96, 'b'] := by
  have e1 : pyStrip ['a', Char.ofNat 96, Char.ofNat 96, Char.ofNat 96, 'b'] =
      ['a', Char.ofNat 96, Char.ofNat 96, Char.ofNat 96, 'b'] := by decide
  have e2 : pyReplace ticksSrt []
      ['a', Char.ofNat 96, Char.ofNat 96, Char.ofNat 96, 'b'] =
      ['a', Char.ofNat 96, Char.ofNat 96, Char.ofNat 96, 'b'] := by
    rw [pyReplace_nomatch _ _ _ _ (by decide), pyReplace_nomatch _ _ _ _ (by decide),
      pyReplace_nomatch _ _ _ _ (by decide), pyReplace_nomatch _ _ _ _ (by decide),
      pyReplace_nomatch _ _ _ _ (by decide), pyReplace_nil]
  have e3 : pyReplace threeTicks []
      ['a', Char.ofNat 96, Char.ofNat 96, Char.ofNat 96, 'b'] = ['a', 'b'] := by
    rw [pyReplace_nomatch _ _ _ _ (by decide),
      pyReplace_matched _ _ _ _ ⟨by decide, by decide⟩]
    rw [show ([Char.ofNat 96, Char.ofNat 96, Char.ofNat 96, 'b'] :
        List Char).drop threeTicks.length = ['b'] from rfl]
    rw [pyReplace_nomatch _ _ _ _ (by decide), pyReplace_nil]
    rfl
  have e4 : cleanResponse ['a', Char.ofNat 96, Char.ofNat 96,
      Char.ofNat 96, 'b'] = ['a', 'b'] := by
    unfold cleanResponse
    rw [e1, e2, e3]
    decide
  refine ⟨?_, e1, by decide, by decide, by decide⟩
  show Except.ok (cleanResponse ['a', Char.ofNat 96, Char.ofNat 96,
    Char.ofNat 96, 'b']) = Except.ok ['a', 'b']
  rw [e4]

/-- C8 amended: for every response text, the driver returns the stripped
response with every occurrence of the fence markers removed globally (not
only surrounding ones): the result carries no leading or trailing
whitespace and contains no triple-backtick fence anywhere; when the
response contains no backtick at all, the driver returns exactly the
whitespace-stripped response (inner content unchanged). -/
theorem cleanup_amended (content : List Char) :
    _translate_chunk (some content) = .ok (cleanResponse content) ∧
    pyStrip (cleanResponse content) = cleanResponse content ∧
    ¬ (threeTicks <:+: cleanResponse content) ∧
    (Char.ofNat 96 ∉ content → cleanResponse content = pyStrip content) := by
  refine ⟨rfl, pyStrip_idem _, ?_, ?_⟩
  · intro hinf
    have hnof := (replace_ticks_no_fence_le
      (pyReplace ticksSrt [] (pyStrip content)).length
      (pyReplace ticksSrt [] (pyStrip content)) (le_refl _)).1
    exact hnof (hinf.trans (pyStrip_infix_self _))
  · intro hmem
    have hsub : Char.ofNat 96 ∉ pyStrip content :=
      fun h => hmem ((pyStrip_infix_self content).sublist.subset h)
    unfold cleanResponse
    rw [pyReplace_not_mem ticksSrt [] (Char.ofNat 96)
      [Char.ofNat 96, Char.ofNat 96, 's', 'r', 't'] rfl (pyStrip content) hsub]
    rw [pyReplace_not_mem threeTicks [] (Char.ofNat 96)
      [Char.ofNat 96, Char.ofNat 96] rfl (pyStrip content) hsub]
    exact pyStrip_idem content

/-- Witness for `cleanup_amended` at a concrete response text. -/
theorem cleanup_amended_witness :
    _translate_chunk (some [' ', 'x', ' ']) = .ok (cleanResponse [' ', 'x', ' ']) ∧
    pyStrip (cleanResponse [' ', 'x', ' ']) = cleanResponse [' ', 'x', ' '] ∧
    ¬ (threeTicks <:+: cleanResponse [' ', 'x', ' ']) ∧
    cleanResponse [' ', 'x', ' '] = pyStrip [' ', 'x', ' '] :=
  ⟨(cleanup_amended [' ', 'x', ' ']).1,
    (cleanup_amended [' ', 'x', ' ']).2.1,
    (cleanup_amended [' ', 'x', ' ']).2.2.1,
    (cleanup_amended [' ', 'x', ' ']).2.2.2 (by decide)⟩

end YT
